import Mathlib

/-!
Shallow embedding of the `im-rs` utility core: `src/util.rs` (range
normalization, linear search, index swap, `clone_ref` over reference-counted
handles, the `FilePool` external backend), `src/iter.rs` (`unfold`), and
`src/proptest.rs` (the `ord_map` strategy).  Machine integers (`usize`) are
modelled as `Nat`; fallible or panicking operations return `Option`.
-/

/- ---------------------------------------------------------------------
   Range normalization (`to_range`, util.rs lines 91-106).
   Rust's `Bound<usize>` is modelled by `RBound`; the returned half-open
   `Range<usize>` is a pair (start, end).
--------------------------------------------------------------------- -/

inductive RBound where
  | included : Nat → RBound
  | excluded : Nat → RBound
  | unbounded : RBound
deriving DecidableEq, Repr

/-- Translation of `to_range`: normalize a pair of bounds to a half-open
`start..end` range, with `right_unbounded` substituted for an open end. -/
def to_range (start_b end_b : RBound) (right_unbounded : Nat) : Nat × Nat :=
  let start_index :=
    match start_b with
    | .included i => i
    | .excluded i => i + 1
    | .unbounded => 0
  let end_index :=
    match end_b with
    | .included i => i + 1
    | .excluded i => i
    | .unbounded => right_unbounded
  (start_index, end_index)

/-- Whether `x` meets the start bound (lower limit) of a range. -/
def satLower : RBound → Nat → Bool
  | .included i, x => decide (i ≤ x)
  | .excluded i, x => decide (i < x)
  | .unbounded, _ => true

/-- Whether `x` meets the end bound (upper limit) of a range, with `u` as the
right-unbounded substitute. -/
def satUpper : RBound → Nat → Nat → Bool
  | .included i, _, x => decide (x ≤ i)
  | .excluded i, _, x => decide (x < i)
  | .unbounded, u, x => decide (x < u)

/-- Internal consistency of a caller-supplied bound pair: every integer below
the start bound's region lies within the end bound's region, i.e. the
described lower limit does not exceed the described upper limit. -/
def BoundsConsistent (s e : RBound) (u : Nat) : Prop :=
  ∀ x : Nat, satLower s x = false → satUpper e u x = true

/- ---------------------------------------------------------------------
   Ascending linear search (`linear_search_by`, util.rs lines 73-89).
   `Ok pos` is `Except.ok pos`, `Err pos` is `Except.error pos`.
--------------------------------------------------------------------- -/

/-- Loop body of `linear_search_by`, with `pos` the running index. -/
def linear_search_go {A : Type} (cmp : A → Ordering) :
    List A → Nat → Except Nat Nat
  | [], pos => .error pos
  | value :: rest, pos =>
    match cmp value with
    | .eq => .ok pos
    | .gt => .error pos
    | .lt => linear_search_go cmp rest (pos + 1)

/-- Translation of `linear_search_by`: scan from index 0. -/
def linear_search_by {A : Type} (cmp : A → Ordering) (xs : List A) :
    Except Nat Nat :=
  linear_search_go cmp xs 0

/-- Index of the first element comparing `Equal`, if any (spec wording). -/
def first_eq_idx {A : Type} (cmp : A → Ordering) : List A → Option Nat
  | [] => none
  | v :: rest =>
    if cmp v = .eq then some 0 else (first_eq_idx cmp rest).map (· + 1)

/-- Index of the first element comparing `Greater`, or the sequence length if
no such element exists (spec wording). -/
def first_gt_idx {A : Type} (cmp : A → Ordering) : List A → Nat
  | [] => 0
  | v :: rest => if cmp v = .gt then 0 else first_gt_idx cmp rest + 1

/-- Search result as the spec describes it: `Ok` of the first equal index,
else `Err` of the insertion point. -/
def search_spec {A : Type} (cmp : A → Ordering) (xs : List A) :
    Except Nat Nat :=
  match first_eq_idx cmp xs with
  | some i => .ok i
  | none => .error (first_gt_idx cmp xs)

/-- Rank of a comparator outcome, used to state "sorted ascending under the
comparator": outcomes must be `lt`* then `eq`* then `gt`*. -/
def cmpRank : Ordering → Nat
  | .lt => 0
  | .eq => 1
  | .gt => 2

/-- The sequence is sorted ascending under the comparator: comparator
outcomes are monotone along the list. -/
def SortedUnder {A : Type} (cmp : A → Ordering) (xs : List A) : Prop :=
  List.Pairwise (fun a b => cmpRank (cmp a) ≤ cmpRank (cmp b)) xs

/-- Shift both the found index and the insertion index by `pos`. -/
def addPos (pos : Nat) : Except Nat Nat → Except Nat Nat
  | .ok i => .ok (pos + i)
  | .error i => .error (pos + i)

/- ---------------------------------------------------------------------
   Index swap (`swap_indices`, util.rs lines 55-70).
   The generic `IndexMut` container is modelled as a `List`; the raw-pointer
   exchange becomes two `List.set` writes.  Out-of-bounds indexing panics in
   Rust, modelled as `none`.
--------------------------------------------------------------------- -/

/-- Translation of `swap_indices`: early return when `a = b`, otherwise
exchange the elements at positions `a` and `b`. -/
def swap_indices {A : Type} (vector : List A) (a b : Nat) : Option (List A) :=
  if a = b then some vector
  else
    match vector[a]?, vector[b]? with
    | some va, some vb => some ((vector.set a vb).set b va)
    | _, _ => none

/- ---------------------------------------------------------------------
   `clone_ref` (util.rs lines 38-43) over `Ref` = `Rc`/`Arc`.
   The reference-counted runtime is modelled as a heap of
   (value, strong count) cells; a handle is an index into the heap.
   `Ref::try_unwrap` succeeds exactly when the strong count is 1, consuming
   the handle; otherwise the handle is dropped (count decremented) and the
   pointee cloned via the value's clone operation `cloneFn`.
--------------------------------------------------------------------- -/

structure RcHeap (A : Type) where
  cells : List (A × Nat)
deriving Repr

/-- Value stored at handle `r`, if the cell exists. -/
def RcHeap.valueAt {A : Type} (h : RcHeap A) (r : Nat) : Option A :=
  h.cells[r]?.map Prod.fst

/-- Strong (owner) count of handle `r`; 0 when the cell is dead or absent. -/
def RcHeap.strongAt {A : Type} (h : RcHeap A) (r : Nat) : Nat :=
  (h.cells[r]?.map Prod.snd).getD 0

/-- Translation of `clone_ref`: `Ref::try_unwrap(r).unwrap_or_else(|r| (*r).clone())`.
With a sole owner the value is moved out (cell becomes dead, no clone call);
otherwise the handle is dropped and the pointee cloned with `cloneFn`.
`none` marks an invalid (dangling or out-of-range) handle, unreachable
through safe Rust. -/
def clone_ref {A : Type} (cloneFn : A → A) (h : RcHeap A) (r : Nat) :
    Option (A × RcHeap A) :=
  match h.cells[r]? with
  | none => none
  | some (v, strong) =>
    if strong = 0 then none
    else if strong = 1 then some (v, ⟨h.cells.set r (v, 0)⟩)
    else some (cloneFn v, ⟨h.cells.set r (v, strong - 1)⟩)

/- ---------------------------------------------------------------------
   `FilePool` external backend (util.rs lines 178-237).
   `changes : HashMap<usize, Arc<T>>` is modelled as an association list,
   handles (`PoolRef = usize`) as `Nat`.  The filesystem path is omitted:
   no modelled operation reads it (construction only creates the directory).
--------------------------------------------------------------------- -/

structure FilePool (T : Type) where
  changes : List (Nat × T)
  next_id : Nat
deriving Repr

/-- HashMap::insert — replace the value under `k` if present, else add. -/
def hmInsert {T : Type} (m : List (Nat × T)) (k : Nat) (v : T) :
    List (Nat × T) :=
  if m.any (fun p => p.1 == k) then
    m.map (fun p => if p.1 == k then (k, v) else p)
  else m ++ [(k, v)]

/-- HashMap lookup by key. -/
def hmLookup {T : Type} (m : List (Nat × T)) (k : Nat) : Option T :=
  (m.find? (fun p => p.1 == k)).map Prod.snd

/-- Translation of `FilePool::new`: empty side table, `next_id = 0`
(the directory-creation side effect has no bearing on the data model). -/
def FilePool.new (T : Type) : FilePool T :=
  { changes := [], next_id := 0 }

/-- Translation of `FilePool::new_ref`, statement for statement:
read `next_id` into `id`, increment `next_id`, insert the value under the
(already incremented) `next_id`, return `id`. -/
def FilePool.new_ref {T : Type} (p : FilePool T) (value : T) :
    Nat × FilePool T :=
  let id := p.next_id
  let next_id := p.next_id + 1
  (id, { changes := hmInsert p.changes next_id value, next_id := next_id })

/-- Translation of `FilePool::ptr_eq`: integer equality of ids. -/
def FilePool.ptr_eq (left right : Nat) : Bool :=
  left == right

/-- Cloning a `FilePool` handle: `usize` is `Copy`, so a clone is the same
integer id. -/
def FilePool.cloneHandle (r : Nat) : Nat := r

/-- Translation of `FilePool::make_mut`, whose body is `todo!()`: a hard
fault (panic) on every invocation, modelled as `none` for all inputs. -/
def FilePool.make_mut {T : Type} (_p : FilePool T) (_r : Nat) :
    Option (T × FilePool T) :=
  none

/-- Run a sequence of `new_ref` calls on a pool, collecting the returned
handles. -/
def FilePool.new_refs {T : Type} (p : FilePool T) :
    List T → List Nat × FilePool T
  | [] => ([], p)
  | v :: vs =>
    let step := p.new_ref v
    let rest := step.2.new_refs vs
    (step.1 :: rest.1, rest.2)

/- ---------------------------------------------------------------------
   `unfold` (iter.rs lines 18-29).
   The iterator's captured state is `Option S` (`let mut value = Some(value)`).
   One `next()` call is `unfoldNext`: `value.take().unwrap()` panics when the
   state has already been consumed — the outer `none` marks that panic;
   `some (some a, st)` yields `a`, `some (none, st)` yields `None` normally.
--------------------------------------------------------------------- -/

/-- One `next()` call of the iterator returned by `unfold`. -/
def unfoldNext {S A : Type} (f : S → Option (A × S)) :
    Option S → Option (Option A × Option S)
  | none => none
  | some s =>
    match f s with
    | some (a, s2) => some (some a, some s2)
    | none => some (none, none)

/-- Outputs obtained by pulling the iterator at most `fuel` times, stopping
at the first non-yield (end of sequence or panic). -/
def unfoldOutputs {S A : Type} (f : S → Option (A × S)) :
    Nat → Option S → List A
  | 0, _ => []
  | fuel + 1, st =>
    match unfoldNext f st with
    | some (some a, st2) => a :: unfoldOutputs f fuel st2
    | _ => []

/-- Outputs described by the spec: repeatedly apply the step function to the
seed, collecting the value components until it returns `none` (or `fuel`
pulls have been taken). -/
def unfoldSpec {S A : Type} (f : S → Option (A × S)) : Nat → S → List A
  | 0, _ => []
  | fuel + 1, s =>
    match f s with
    | some (a, s2) => a :: unfoldSpec f fuel s2
    | none => []

/-- The spec's example step function: `n -> if n < 3 then Some((n, n+1)) else None`. -/
def exampleStep (n : Nat) : Option (Nat × Nat) :=
  if n < 3 then some (n, n + 1) else none

/- ---------------------------------------------------------------------
   `ord_map` strategy (proptest.rs lines 28-43).
   Modelled from the spec: `OrdMap::from(Vec<(K, V)>)` is not under src/
   (only its caller is); per the spec it "builds the map which deduplicates
   by key since map keys are unique", i.e. sequential keyed insertion where
   a repeated key overwrites.  The generator's nondeterminism is modelled by
   quantifying over the generated pair vector, whose length the `vec`
   combinator draws from `[lo, hi)`.
--------------------------------------------------------------------- -/

/-- Modelled from the spec: keyed insertion into an ordered-map association
list — replace the value when the key is present, otherwise add an entry. -/
def omInsert {K V : Type} [DecidableEq K] (m : List (K × V)) (k : K) (v : V) :
    List (K × V) :=
  if m.any (fun p => p.1 = k) then
    m.map (fun p => if p.1 = k then (k, v) else p)
  else m ++ [(k, v)]

/-- Modelled from the spec: `OrdMap::from` over a pair vector — insert each
pair in order, so later duplicates of a key overwrite earlier ones and the
map length counts distinct keys. -/
def ordMapFromList {K V : Type} [DecidableEq K] (pairs : List (K × V)) :
    List (K × V) :=
  pairs.foldl (fun m p => omInsert m p.1 p.2) []

/- ---------------------------------------------------------------------
   Theorems.
--------------------------------------------------------------------- -/

/-- Claim C2: `FilePool::make_mut` is an unimplemented stop (`todo!()`): it
never returns normally — a hard fault for every pool state and handle. -/
theorem make_mut_always_faults {T : Type} (p : FilePool T) (r : Nat) :
    FilePool.make_mut p r = none :=
  rfl

/-- Claim C1 (code bug in the source): on a fresh `FilePool`, `new_ref v`
returns handle 0 but records `v` in the side table under key 1 — the value
is stored under `returned id + 1`, and no entry exists under the returned
id itself. -/
theorem new_ref_stores_under_wrong_id (v : Nat) :
    ((FilePool.new Nat).new_ref v).1 = 0
    ∧ hmLookup ((FilePool.new Nat).new_ref v).2.changes 0 = none
    ∧ hmLookup ((FilePool.new Nat).new_ref v).2.changes 1 = some v := by
  refine ⟨rfl, rfl, rfl⟩

/-- Claim C5: `to_range` maps Included/Excluded/Unbounded start bounds to
`i` / `i + 1` / `0` and Included/Excluded/Unbounded end bounds to `i + 1` /
`i` / the substitute; `Excluded(2)..Included(5)` yields `3..6`, the fully
unbounded range with substitute 10 yields `0..10`, and start ≤ end holds
whenever the caller-supplied bounds are internally consistent. -/
theorem to_range_spec :
    (∀ (i : Nat) (e : RBound) (u : Nat),
        (to_range (.included i) e u).1 = i
        ∧ (to_range (.excluded i) e u).1 = i + 1
        ∧ (to_range .unbounded e u).1 = 0)
    ∧ (∀ (s : RBound) (i u : Nat),
        (to_range s (.included i) u).2 = i + 1
        ∧ (to_range s (.excluded i) u).2 = i
        ∧ (to_range s .unbounded u).2 = u)
    ∧ to_range (.excluded 2) (.included 5) 10 = (3, 6)
    ∧ to_range .unbounded .unbounded 10 = (0, 10)
    ∧ (∀ (s e : RBound) (u : Nat), BoundsConsistent s e u →
        (to_range s e u).1 ≤ (to_range s e u).2) := by
  refine ⟨fun i e u => ⟨rfl, rfl, rfl⟩, fun s i u => ⟨rfl, rfl, rfl⟩, rfl, rfl, ?_⟩
  intro s e u hcon
  cases s with
  | unbounded => exact Nat.zero_le _
  | included i =>
    cases i with
    | zero => exact Nat.zero_le _
    | succ n =>
      have hl : satLower (RBound.included (n + 1)) n = false := by
        simp [satLower]
      have hu := hcon n hl
      cases e <;> simp [satUpper, to_range] at hu ⊢ <;> omega
  | excluded i =>
    have hl : satLower (RBound.excluded i) i = false := by
      simp [satLower]
    have hu := hcon i hl
    cases e <;> simp [satUpper, to_range] at hu ⊢ <;> omega

/-- Witness for claim C5: the bounds `Included(2)..Included(5)` with
substitute 10 are internally consistent, and the normalized range satisfies
start ≤ end. -/
theorem to_range_spec_witness :
    BoundsConsistent (.included 2) (.included 5) 10
    ∧ (to_range (.included 2) (.included 5) 10).1
      ≤ (to_range (.included 2) (.included 5) 10).2 := by
  have hcon : BoundsConsistent (.included 2) (.included 5) 10 := by
    intro x hx
    simp [satLower] at hx
    simp [satUpper]
    omega
  exact ⟨hcon, to_range_spec.2.2.2.2 _ _ _ hcon⟩

/-- Pulling the `unfold` iterator agrees with direct repeated application of
the step function to the seed, for any fuel. -/
theorem unfoldOutputs_eq_unfoldSpec {S A : Type} (f : S → Option (A × S))
    (fuel : Nat) (s : S) :
    unfoldOutputs f fuel (some s) = unfoldSpec f fuel s := by
  induction fuel generalizing s with
  | zero => rfl
  | succ fuel ih =>
    cases hf : f s with
    | none => simp [unfoldOutputs, unfoldNext, unfoldSpec, hf]
    | some p => simp [unfoldOutputs, unfoldNext, unfoldSpec, hf, ih]

/-- Once the example step function reaches state 3 it is done: no further
outputs, at any fuel. -/
theorem unfoldSpec_exampleStep_done (m : Nat) :
    unfoldSpec exampleStep m 3 = [] := by
  cases m <;> simp [unfoldSpec, exampleStep]

/-- Claim C8: the sequence produced by `unfold` is exactly the outputs of
repeatedly applying the step function from the seed (each pull consumes the
state and replaces it with the returned one, ending when the step returns
`none`); on the example step from seed 0 it yields exactly 0, 1, 2 and then
terminates — any fuel of at least 3 yields the same three outputs. -/
theorem unfold_yields_spec :
    (∀ (S A : Type) (f : S → Option (A × S)) (fuel : Nat) (s : S),
        unfoldOutputs f fuel (some s) = unfoldSpec f fuel s)
    ∧ (∀ fuel : Nat, 3 ≤ fuel →
        unfoldOutputs exampleStep fuel (some 0) = [0, 1, 2]) := by
  refine ⟨fun S A f fuel s => unfoldOutputs_eq_unfoldSpec f fuel s, ?_⟩
  intro fuel hfuel
  obtain ⟨k, rfl⟩ : ∃ k, fuel = k + 1 + 1 + 1 := ⟨fuel - 3, by omega⟩
  rw [unfoldOutputs_eq_unfoldSpec]
  simp [unfoldSpec, exampleStep, unfoldSpec_exampleStep_done]

/-- Witness for claim C8: at fuel 10 the iterator's outputs match the spec
outputs, and from seed 0 they are exactly `[0, 1, 2]`. -/
theorem unfold_yields_spec_witness :
    unfoldOutputs exampleStep 10 (some 0) = unfoldSpec exampleStep 10 0
    ∧ (3 ≤ 10
        ∧ unfoldOutputs exampleStep 10 (some 0) = [0, 1, 2]) :=
  ⟨unfold_yields_spec.1 Nat Nat exampleStep 10 0, by decide,
    unfold_yields_spec.2 10 (by decide)⟩

/-- Claim C10: the `unfold` iterator is not fused — whenever a `next()` call
yields `None`, the internal state option has been consumed, so the following
`next()` call unwraps `None` and panics (the outer `none`) rather than
yielding `None` again. -/
theorem unfold_not_fused {S A : Type} (f : S → Option (A × S))
    (st st2 : Option S) (h : unfoldNext f st = some (none, st2)) :
    st2 = none
    ∧ unfoldNext f st2 = (none : Option (Option A × Option S)) := by
  cases st with
  | none => simp [unfoldNext] at h
  | some s =>
    cases hf : f s with
    | none =>
      simp [unfoldNext, hf] at h
      subst h
      exact ⟨rfl, rfl⟩
    | some p =>
      simp [unfoldNext, hf] at h

/-- Witness for claim C10: on the example step, pulling at the exhausted
state 3 yields `None` with a consumed state, and the next pull panics. -/
theorem unfold_not_fused_witness :
    unfoldNext exampleStep (some 3) = some (none, none)
    ∧ ((none : Option Nat) = none
        ∧ unfoldNext exampleStep (none : Option Nat)
          = (none : Option (Option Nat × Option Nat))) :=
  ⟨rfl, unfold_not_fused exampleStep (some 3) none rfl⟩

/-- Running `new_refs` returns one handle per inserted value. -/
theorem new_refs_length {T : Type} (p : FilePool T) (vs : List T) :
    (p.new_refs vs).1.length = vs.length := by
  induction vs generalizing p with
  | nil => rfl
  | cons v vs ih => simp [FilePool.new_refs, ih]

/-- The handle at position `i` of a `new_refs` run is the pool's starting
`next_id` plus `i`: ids are assigned consecutively and monotonically. -/
theorem new_refs_getElem {T : Type} (p : FilePool T) (vs : List T) (i : Nat)
    (h : i < vs.length) :
    (p.new_refs vs).1[i]? = some (p.next_id + i) := by
  induction vs generalizing p i with
  | nil => simp at h
  | cons v vs ih =>
    cases i with
    | zero => simp [FilePool.new_refs, FilePool.new_ref]
    | succ i =>
      have hi : i < vs.length := by simpa using h
      have hrec := ih (p.new_ref v).2 i hi
      have hnext : (p.new_ref v).2.next_id = p.next_id + 1 := rfl
      rw [hnext] at hrec
      simp [FilePool.new_refs, hrec]
      omega

/-- Claim C4: FilePool handle identity — a clone of a handle (a copy of the
integer id) is `ptr_eq` to the original, and handles returned by distinct
`new_ref` calls of any call sequence on the same pool are never `ptr_eq`,
regardless of the inserted values (equal-valued payloads included): each
call returns a fresh, never-before-returned id. -/
theorem filePool_identity :
    (∀ r : Nat, FilePool.ptr_eq (FilePool.cloneHandle r) r = true)
    ∧ (∀ (T : Type) (p : FilePool T) (vs : List T) (i j a b : Nat),
        i ≠ j →
        (p.new_refs vs).1[i]? = some a →
        (p.new_refs vs).1[j]? = some b →
        FilePool.ptr_eq a b = false) := by
  constructor
  · intro r
    simp [FilePool.ptr_eq, FilePool.cloneHandle]
  · intro T p vs i j a b hij ha hb
    have hi : i < vs.length := by
      by_contra hlt
      rw [List.getElem?_eq_none (by rw [new_refs_length]; omega)] at ha
      exact Option.noConfusion ha
    have hj : j < vs.length := by
      by_contra hlt
      rw [List.getElem?_eq_none (by rw [new_refs_length]; omega)] at hb
      exact Option.noConfusion hb
    rw [new_refs_getElem p vs i hi] at ha
    rw [new_refs_getElem p vs j hj] at hb
    have ha2 : a = p.next_id + i := by exact Option.some.inj ha.symm
    have hb2 : b = p.next_id + j := by exact Option.some.inj hb.symm
    subst ha2
    subst hb2
    simp [FilePool.ptr_eq]
    omega

/-- Witness for claim C4: inserting the equal values 5 and 5 into a fresh
FilePool yields the distinct handles 0 and 1, which are not `ptr_eq`. -/
theorem filePool_identity_witness :
    (0 : Nat) ≠ 1
    ∧ ((FilePool.new Nat).new_refs [5, 5]).1[0]? = some 0
    ∧ ((FilePool.new Nat).new_refs [5, 5]).1[1]? = some 1
    ∧ FilePool.ptr_eq 0 1 = false :=
  ⟨by decide, by rfl, by rfl,
    filePool_identity.2 Nat (FilePool.new Nat) [5, 5] 0 1 0 1
      (by decide) (by rfl) (by rfl)⟩

/-- A list whose elements all compare `Greater` contains no element
comparing `Equal`. -/
theorem first_eq_idx_none {A : Type} (cmp : A → Ordering) (xs : List A)
    (hall : ∀ y ∈ xs, cmp y = .gt) :
    first_eq_idx cmp xs = none := by
  induction xs with
  | nil => rfl
  | cons v rest ih =>
    have hv := hall v (by simp)
    have hrest := ih (fun y hy => hall y (by simp [hy]))
    simp [first_eq_idx, hv, hrest]

/-- The search loop started at `pos` returns the spec result shifted by
`pos`, provided the list is sorted under the comparator. -/
theorem linear_search_go_eq {A : Type} (cmp : A → Ordering) (xs : List A)
    (hs : SortedUnder cmp xs) (pos : Nat) :
    linear_search_go cmp xs pos = addPos pos (search_spec cmp xs) := by
  induction xs generalizing pos with
  | nil => simp [linear_search_go, search_spec, first_eq_idx, first_gt_idx, addPos]
  | cons v rest ih =>
    have hhead := (List.pairwise_cons.mp hs).1
    have htail : SortedUnder cmp rest := (List.pairwise_cons.mp hs).2
    cases hc : cmp v with
    | eq => simp [linear_search_go, hc, search_spec, first_eq_idx, addPos]
    | gt =>
      have hall : ∀ y ∈ rest, cmp y = .gt := by
        intro y hy
        have hr := hhead y hy
        rw [hc] at hr
        cases hcy : cmp y <;> rw [hcy] at hr <;> simp [cmpRank] at hr ⊢
      simp [linear_search_go, hc, search_spec, first_eq_idx,
        first_eq_idx_none cmp rest hall, first_gt_idx, addPos]
    | lt =>
      have hrec := ih htail (pos + 1)
      cases hfe : first_eq_idx cmp rest with
      | some val =>
        simp [linear_search_go, hc, hrec, search_spec, first_eq_idx, hfe, addPos]
        omega
      | none =>
        simp [linear_search_go, hc, hrec, search_spec, first_eq_idx, hfe,
          first_gt_idx, addPos]
        omega

/-- Claim C6: on a sequence sorted ascending under the comparator,
`linear_search_by` returns `Ok` of the index of the first element comparing
`Equal`, else `Err` of the index of the first element comparing `Greater`
(or the length when none does) — the binary-search insertion point; over
`[1,3,5,7]`, searching 5, 4 and 8 gives `Ok 2`, `Err 2` and `Err 4`. -/
theorem linear_search_by_spec :
    (∀ (A : Type) (cmp : A → Ordering) (xs : List A), SortedUnder cmp xs →
        linear_search_by cmp xs = search_spec cmp xs)
    ∧ linear_search_by (fun a => compare a 5) [1, 3, 5, 7] = .ok 2
    ∧ linear_search_by (fun a => compare a 4) [1, 3, 5, 7] = .error 2
    ∧ linear_search_by (fun a => compare a 8) [1, 3, 5, 7] = .error 4 := by
  refine ⟨?_, by rfl, by rfl, by rfl⟩
  intro A cmp xs hs
  have h := linear_search_go_eq cmp xs hs 0
  rw [linear_search_by, h]
  cases search_spec cmp xs <;> simp [addPos]

/-- Witness for claim C6: `[1,3,5,7]` is sorted under `compare · 4`, and the
search for 4 matches the spec result. -/
theorem linear_search_by_spec_witness :
    SortedUnder (fun a => compare a 4) [1, 3, 5, 7]
    ∧ linear_search_by (fun a => compare a 4) [1, 3, 5, 7]
      = search_spec (fun a => compare a 4) [1, 3, 5, 7] := by
  have hs : SortedUnder (fun a => compare a 4) [1, 3, 5, 7] := by
    show List.Pairwise _ _
    decide
  exact ⟨hs, linear_search_by_spec.1 Nat (fun a => compare a 4) [1, 3, 5, 7] hs⟩

/-- Claim C7: `swap_indices` with equal positions is a no-op; with distinct
in-bounds positions it exchanges exactly the elements at `a` and `b`, leaves
every other position unchanged, and applying it twice restores the original
container. -/
theorem swap_indices_spec :
    (∀ (A : Type) (v : List A) (a b : Nat), a = b →
        swap_indices v a b = some v)
    ∧ (∀ (A : Type) (v : List A) (a b : Nat),
        a ≠ b → a < v.length → b < v.length →
        ∃ w, swap_indices v a b = some w
          ∧ w.length = v.length
          ∧ w[a]? = v[b]?
          ∧ w[b]? = v[a]?
          ∧ (∀ i, i ≠ a → i ≠ b → w[i]? = v[i]?)
          ∧ swap_indices w a b = some v) := by
  constructor
  · intro A v a b hab
    simp [swap_indices, hab]
  · intro A v a b hab ha hb
    have hva : v[a]? = some v[a] := List.getElem?_eq_getElem ha
    have hvb : v[b]? = some v[b] := List.getElem?_eq_getElem hb
    have hwa : ((v.set a v[b]).set b v[a])[a]? = some v[b] := by
      rw [List.getElem?_set_ne (Ne.symm hab),
        List.getElem?_set_self (by simpa using ha)]
    have hwb : ((v.set a v[b]).set b v[a])[b]? = some v[a] := by
      rw [List.getElem?_set_self (by simpa using hb)]
    refine ⟨(v.set a v[b]).set b v[a], ?_, by simp, ?_, ?_, ?_, ?_⟩
    · rw [swap_indices, if_neg hab, hva, hvb]
    · rw [hwa, hvb]
    · rw [hwb, hva]
    · intro i hia hib
      rw [List.getElem?_set_ne (Ne.symm hib), List.getElem?_set_ne (Ne.symm hia)]
    · rw [swap_indices, if_neg hab, hwa, hwb]
      refine congrArg some (List.ext_getElem? fun n => ?_)
      by_cases hna : n = a
      · subst hna
        rw [List.getElem?_set_ne (Ne.symm hab),
          List.getElem?_set_self (by simpa using ha)]
        exact hva.symm
      · by_cases hnb : n = b
        · subst hnb
          rw [List.getElem?_set_self (by simpa using hb)]
          exact hvb.symm
        · rw [List.getElem?_set_ne (fun h => hnb h.symm),
            List.getElem?_set_ne (fun h => hna h.symm),
            List.getElem?_set_ne (fun h => hnb h.symm),
            List.getElem?_set_ne (fun h => hna h.symm)]

/-- Witness for claim C7: swapping positions 0 and 2 of `[10, 20, 30]`
exchanges exactly those elements, and swapping again restores the list. -/
theorem swap_indices_spec_witness :
    (0 : Nat) ≠ 2
    ∧ ∃ w, swap_indices ([10, 20, 30] : List Nat) 0 2 = some w
        ∧ w.length = ([10, 20, 30] : List Nat).length
        ∧ w[0]? = ([10, 20, 30] : List Nat)[2]?
        ∧ w[2]? = ([10, 20, 30] : List Nat)[0]?
        ∧ (∀ i, i ≠ 0 → i ≠ 2 → w[i]? = ([10, 20, 30] : List Nat)[i]?)
        ∧ swap_indices w 0 2 = some [10, 20, 30] :=
  ⟨by decide, swap_indices_spec.2 Nat [10, 20, 30] 0 2
    (by decide) (by decide) (by decide)⟩

/-- Claim C3: reclaim-or-clone. With a sole owner, `clone_ref` returns the
owned value itself — the result never involves the value's clone operation
`cloneFn` — and with two or more owners it returns a clone of the pointee
while every live handle (the original included) still refers to the
original, unmodified value. -/
theorem clone_ref_spec :
    (∀ (A : Type) (cloneFn : A → A) (h : RcHeap A) (r : Nat),
        h.strongAt r = 1 →
        (clone_ref cloneFn h r).map Prod.fst = h.valueAt r)
    ∧ (∀ (A : Type) (cloneFn : A → A) (h : RcHeap A) (r : Nat),
        2 ≤ h.strongAt r →
        (clone_ref cloneFn h r).map Prod.fst = (h.valueAt r).map cloneFn
        ∧ ∀ x h2, clone_ref cloneFn h r = some (x, h2) →
            ∀ r2, h2.valueAt r2 = h.valueAt r2) := by
  constructor
  · intro A cloneFn h r h1
    cases hc : h.cells[r]? with
    | none => rw [RcHeap.strongAt, hc] at h1; simp at h1
    | some cell =>
      obtain ⟨v, k⟩ := cell
      rw [RcHeap.strongAt, hc] at h1
      simp at h1
      subst h1
      simp [clone_ref, hc, RcHeap.valueAt]
  · intro A cloneFn h r h2own
    cases hc : h.cells[r]? with
    | none => rw [RcHeap.strongAt, hc] at h2own; simp at h2own
    | some cell =>
      obtain ⟨v, k⟩ := cell
      rw [RcHeap.strongAt, hc] at h2own
      simp at h2own
      have hk0 : ¬k = 0 := by omega
      have hk1 : ¬k = 1 := by omega
      have hr : r < h.cells.length := by
        by_contra hno
        rw [List.getElem?_eq_none (by omega)] at hc
        exact Option.noConfusion hc
      constructor
      · simp [clone_ref, hc, hk0, hk1, RcHeap.valueAt]
      · intro x hh2 heq r2
        simp only [clone_ref, hc, if_neg hk0, if_neg hk1,
          Option.some.injEq, Prod.mk.injEq] at heq
        obtain ⟨hx, hh⟩ := heq
        subst hh
        by_cases hr2 : r2 = r
        · subst hr2
          rw [RcHeap.valueAt, RcHeap.valueAt,
            List.getElem?_set_self (by simpa using hr), hc]
          rfl
        · rw [RcHeap.valueAt, RcHeap.valueAt,
            List.getElem?_set_ne (fun hne => hr2 hne.symm)]

/-- Witness for claim C3, with a clone-counting value type (payload, clone
count): a sole owner reclaims the value with the clone count untouched,
while a doubly-owned handle yields a clone (count bumped) and leaves the
stored value unmodified. -/
theorem clone_ref_spec_witness :
    (RcHeap.strongAt (RcHeap.mk [((7, 0), 1)]) 0 = 1
      ∧ (clone_ref (fun p : Nat × Nat => (p.1, p.2 + 1))
            (RcHeap.mk [((7, 0), 1)]) 0).map Prod.fst
        = RcHeap.valueAt (RcHeap.mk [((7, 0), 1)]) 0)
    ∧ (2 ≤ RcHeap.strongAt (RcHeap.mk [((7, 0), 2)]) 0
      ∧ ((clone_ref (fun p : Nat × Nat => (p.1, p.2 + 1))
              (RcHeap.mk [((7, 0), 2)]) 0).map Prod.fst
          = (RcHeap.valueAt (RcHeap.mk [((7, 0), 2)]) 0).map
              (fun p : Nat × Nat => (p.1, p.2 + 1))
        ∧ ∀ x h2,
            clone_ref (fun p : Nat × Nat => (p.1, p.2 + 1))
                (RcHeap.mk [((7, 0), 2)]) 0 = some (x, h2) →
            ∀ r2, h2.valueAt r2
              = RcHeap.valueAt (RcHeap.mk [((7, 0), 2)]) r2)) :=
  ⟨⟨by decide,
      clone_ref_spec.1 (Nat × Nat) (fun p => (p.1, p.2 + 1))
        (RcHeap.mk [((7, 0), 1)]) 0 (by decide)⟩,
    ⟨by decide,
      clone_ref_spec.2 (Nat × Nat) (fun p => (p.1, p.2 + 1))
        (RcHeap.mk [((7, 0), 2)]) 0 (by decide)⟩⟩

/-- Keyed insertion grows an association list by at most one entry. -/
theorem omInsert_length_le {K V : Type} [DecidableEq K]
    (m : List (K × V)) (k : K) (v : V) :
    (omInsert m k v).length ≤ m.length + 1 := by
  unfold omInsert
  split <;> simp

/-- Building a map by repeated keyed insertion never exceeds the number of
inserted pairs plus the accumulator size. -/
theorem foldl_omInsert_length {K V : Type} [DecidableEq K]
    (pairs : List (K × V)) (acc : List (K × V)) :
    (pairs.foldl (fun m p => omInsert m p.1 p.2) acc).length
      ≤ acc.length + pairs.length := by
  induction pairs generalizing acc with
  | nil => simp
  | cons p ps ih =>
    simp only [List.foldl_cons, List.length_cons]
    have h1 := ih (omInsert acc p.1 p.2)
    have h2 := omInsert_length_le acc p.1 p.2
    omega

/-- Claim C9: every map the `ord_map` strategy yields has length in
`[lo, hi)` — the generated pair vector has length below `hi` (the `vec`
combinator draws lengths from `[lo, hi)`), key deduplication can only
shrink it, and the built-in filter rejects any sample whose deduplicated
length fell below `lo`. -/
theorem ord_map_size_spec {K V : Type} [DecidableEq K] (lo hi : Nat)
    (pairs : List (K × V))
    (_hgen_lo : lo ≤ pairs.length) (hgen_hi : pairs.length < hi)
    (hfilter : lo ≤ (ordMapFromList pairs).length) :
    lo ≤ (ordMapFromList pairs).length
    ∧ (ordMapFromList pairs).length < hi := by
  have hle : (ordMapFromList pairs).length ≤ pairs.length := by
    have hb := foldl_omInsert_length pairs []
    simpa [ordMapFromList] using hb
  exact ⟨hfilter, by omega⟩

/-- Witness for claim C9: eleven generated pairs with one duplicate key
deduplicate to a ten-entry map, which passes the filter for `size = 10..100`
and has length within `[10, 100)`. -/
theorem ord_map_size_spec_witness :
    10 ≤ ((List.range 10).map (fun i => (i, 0)) ++ [(0, 5)]).length
    ∧ ((List.range 10).map (fun i => (i, 0)) ++ [(0, 5)]).length < 100
    ∧ 10 ≤ (ordMapFromList
        ((List.range 10).map (fun i => (i, 0)) ++ [(0, 5)])).length
    ∧ (10 ≤ (ordMapFromList
          ((List.range 10).map (fun i => (i, 0)) ++ [(0, 5)])).length
        ∧ (ordMapFromList
            ((List.range 10).map (fun i => (i, 0)) ++ [(0, 5)])).length
          < 100) :=
  ⟨by decide, by decide, by decide,
    ord_map_size_spec 10 100
      ((List.range 10).map (fun i => (i, 0)) ++ [(0, 5)])
      (by decide) (by decide) (by decide)⟩
